import Mathlib

/-!
Verification of the chat-TUI rendering and state code (src/ui.rs, src/app.rs).

Strings are modelled as `List Char`. Rust's `String::insert`, `String::remove`
and `String::len` work on UTF-8 *byte* indices and panic off char boundaries;
we model the byte-indexed operations explicitly (`byteInsert`, `byteRemove`,
`byteLen`), returning `none` where the Rust code would panic. Display width is
an abstract per-character column count `cw : Char → Nat` (the source uses the
unicode-width crate); theorems that depend on the joining space being one
column wide state that as the hypothesis `cw ' ' = 1`.
-/

/-- Whitespace predicate modelling Rust's `char::is_whitespace` for the
characters that matter here. -/
def isWs (c : Char) : Bool := c.isWhitespace

/-- One chat message, from `ChatMessage` in src/ui.rs (timestamp as `Nat`). -/
structure MsgM where
  content : List Char
  is_user : Bool
  timestamp : Nat
deriving DecidableEq

/-- The application state, from `AppState` in src/ui.rs. `input_cursor` is a
byte index, exactly as the Rust code uses it. -/
structure AppStateM where
  messages : List MsgM
  input : List Char
  input_cursor : Nat
  scroll_offset : Nat
  is_loading : Bool
  status_message : List Char
  animation_frame : Nat
deriving DecidableEq

/-- `AppState::default` from src/ui.rs. -/
def defaultState : AppStateM :=
  { messages := []
    input := []
    input_cursor := 0
    scroll_offset := 0
    is_loading := false
    status_message := "Ready to chat with Gemini! 🚀".toList
    animation_frame := 0 }

/-- UTF-8 byte length of a string, Rust's `String::len`. -/
def byteLen (l : List Char) : Nat := (l.map Char.utf8Size).sum

/-- Rust's `String::insert(i, c)`: insert at byte index `i`; `none` models the
panic when `i` is past the end or not on a character boundary. -/
def byteInsert (c : Char) : List Char → Nat → Option (List Char)
  | l, 0 => some (c :: l)
  | [], _ + 1 => none
  | a :: l, i + 1 =>
    if i + 1 < a.utf8Size then none
    else (byteInsert c l (i + 1 - a.utf8Size)).map (a :: ·)

/-- Rust's `String::remove(i)`: remove the character starting at byte index
`i`; `none` models the panic when `i` is past the end or mid-character. -/
def byteRemove : List Char → Nat → Option (List Char)
  | [], _ => none
  | _ :: l, 0 => some l
  | a :: l, i + 1 =>
    if i + 1 < a.utf8Size then none
    else (byteRemove l (i + 1 - a.utf8Size)).map (a :: ·)

/-- `AppState::add_message` from src/ui.rs: push, then auto-scroll to the
bottom (`messages.len().saturating_sub(1)`). -/
def addMessage (st : AppStateM) (content : List Char) (is_user : Bool)
    (now : Nat) : AppStateM :=
  let msgs := st.messages ++ [⟨content, is_user, now⟩]
  { st with messages := msgs, scroll_offset := msgs.length - 1 }

/-- `AppState::insert_char` from src/ui.rs: byte-indexed insert, then
`input_cursor += 1`. `none` models a panic. -/
def insertChar (st : AppStateM) (c : Char) : Option AppStateM :=
  (byteInsert c st.input st.input_cursor).map fun s =>
    { st with input := s, input_cursor := st.input_cursor + 1 }

/-- `AppState::delete_char` from src/ui.rs: if the cursor is positive, remove
at byte index `cursor - 1` and step back; otherwise a no-op. -/
def deleteChar (st : AppStateM) : Option AppStateM :=
  if st.input_cursor > 0 then
    (byteRemove st.input (st.input_cursor - 1)).map fun s =>
      { st with input := s, input_cursor := st.input_cursor - 1 }
  else some st

/-- `AppState::move_cursor_left` from src/ui.rs. -/
def moveCursorLeft (st : AppStateM) : AppStateM :=
  if st.input_cursor > 0 then { st with input_cursor := st.input_cursor - 1 }
  else st

/-- `AppState::move_cursor_right` from src/ui.rs: the bound is
`self.input.len()`, a byte count. -/
def moveCursorRight (st : AppStateM) : AppStateM :=
  if st.input_cursor < byteLen st.input then
    { st with input_cursor := st.input_cursor + 1 }
  else st

/-- `AppState::clear_input` from src/ui.rs. -/
def clearInput (st : AppStateM) : AppStateM :=
  { st with input := [], input_cursor := 0 }

/-- `AppState::increment_animation` from src/ui.rs. -/
def incrementAnimation (st : AppStateM) : AppStateM :=
  { st with animation_frame := (st.animation_frame + 1) % 100 }

/-- Rust's `str::trim`: drop whitespace from both ends. -/
def trimChars (l : List Char) : List Char :=
  ((l.dropWhile isWs).reverse.dropWhile isWs).reverse

def sendingStatus : List Char := "Sending message to Gemini...".toList

def cancelledStatus : List Char := "Message cancelled".toList

def receivedStatus : List Char := "Response received! 🎉".toList

def errorStatus : List Char := "Error occurred 😞".toList

def errTag : List Char := "❌ Error: ".toList

/-- The `KeyCode::Enter` branch of `App::run` in src/app.rs. The returned
`Option` is the message handed to the spawned send task: `some m` means
exactly one asynchronous send of `m` was started, `none` means none was. -/
def handleEnter (st : AppStateM) (now : Nat) : AppStateM × Option (List Char) :=
  if trimChars st.input ≠ [] ∧ st.is_loading = false then
    let message := st.input
    let st1 := clearInput (addMessage st message true now)
    ({ st1 with is_loading := true, status_message := sendingStatus },
      some message)
  else (st, none)

/-- The `KeyCode::Esc` branch of `App::run` in src/app.rs. -/
def handleEsc (st : AppStateM) : AppStateM :=
  if st.is_loading then
    { st with is_loading := false, status_message := cancelledStatus }
  else st

/-- Display width of a string under the abstract character-width function
`cw`, modelling `UnicodeWidthStr::width` (the sum of the character widths). -/
def strWidth (cw : Char → Nat) (l : List Char) : Nat := (l.map cw).sum

/-- Rust's `str::split_whitespace`, with an accumulator for the current
word: runs of non-whitespace characters, in order, no empty words. -/
def splitWsAux : List Char → List Char → List (List Char)
  | [], cur => if cur = [] then [] else [cur]
  | c :: r, cur =>
    if isWs c then
      if cur = [] then splitWsAux r [] else cur :: splitWsAux r []
    else splitWsAux r (cur ++ [c])

def splitWs (l : List Char) : List (List Char) := splitWsAux l []

/-- The greedy chunk scan inside `wrap_text`'s long-word loop (src/ui.rs):
take characters while the accumulated width stays within `aw`; return the
chunk and the rest. -/
def takeChunk (cw : Char → Nat) (aw : Nat) : List Char → Nat →
    List Char × List Char
  | [], _ => ([], [])
  | c :: rest, acc =>
    if aw < acc + cw c then ([], c :: rest)
    else
      let p := takeChunk cw aw rest (acc + cw c)
      (c :: p.1, p.2)

/-- The long-word breaking loop of `wrap_text` (src/ui.rs), with fuel for
structural recursion (each iteration consumes at least one character, so
fuel equal to the word length suffices). When even the first character is
wider than `aw`, that single character is taken anyway. -/
def breakChunksF (cw : Char → Nat) (aw : Nat) : Nat → List Char →
    List (List Char)
  | _, [] => []
  | 0, _ :: _ => []
  | f + 1, c :: rest =>
    if aw < cw c then [c] :: breakChunksF cw aw f rest
    else
      let p := takeChunk cw aw rest (cw c)
      (c :: p.1) :: breakChunksF cw aw f p.2

def breakChunks (cw : Char → Nat) (aw : Nat) (word : List Char) :
    List (List Char) :=
  breakChunksF cw aw word.length word

/-- Push the current line onto the produced lines when it is non-empty, as
`wrap_text` does before breaking a long word and after the word loop. -/
def flushLine (st : List (List Char) × List Char) : List (List Char) :=
  if st.2 = [] then st.1 else st.1 ++ [st.2]

/-- One step of `wrap_text`'s word loop (src/ui.rs), on the state
`(lines, current_line)`. -/
def wrapStep (cw : Char → Nat) (aw : Nat)
    (st : List (List Char) × List Char) (word : List Char) :
    List (List Char) × List Char :=
  if aw < strWidth cw word then (flushLine st ++ breakChunks cw aw word, [])
  else if st.2 = [] then (st.1, word)
  else if strWidth cw st.2 + 1 + strWidth cw word ≤ aw then
    (st.1, st.2 ++ ' ' :: word)
  else (st.1 ++ [st.2], word)

/-- `wrap_text` from src/ui.rs: clamp the width to the minimum floor of 10,
fold the words through `wrapStep`, flush the final partial line, and emit a
single empty line when nothing was produced. -/
def wrapText (cw : Char → Nat) (text : List Char) (width : Nat) :
    List (List Char) :=
  let aw := max width 10
  let lines := flushLine ((splitWs text).foldl (wrapStep cw aw) ([], []))
  if lines = [] then [[]] else lines

/-- A styled run produced by `parse_markdown_spans` (src/ui.rs): its text and
whether it carries the bold modifier. -/
structure MRun where
  text : List Char
  bold : Bool
deriving DecidableEq

/-- Flush the accumulated plain text as a run, skipping an empty buffer,
as `parse_markdown_spans` does before and after a bold section. -/
def pushCur (cur : List Char) (spans : List MRun) : List MRun :=
  if cur = [] then spans else spans ++ [⟨cur, false⟩]

/-- The inner collection loop of `parse_markdown_spans` (src/ui.rs): gather
characters until a closing doubled marker or end of input; return the
gathered text, whether the closing marker was found, and the rest. -/
def collectBold : List Char → List Char → List Char × Bool × List Char
  | [], acc => (acc, false, [])
  | c :: rest, acc =>
    if c = '*' ∧ rest.head? = some '*' then (acc, true, rest.tail)
    else collectBold rest (acc ++ [c])

/-- The outer scan loop of `parse_markdown_spans` (src/ui.rs), with fuel for
structural recursion (each iteration consumes at least one character, so
fuel beyond the input length suffices). -/
def parseLoopF : Nat → List Char → List Char → List MRun → List MRun
  | _, [], cur, spans => pushCur cur spans
  | 0, _ :: _, cur, spans => pushCur cur spans
  | f + 1, c :: rest, cur, spans =>
    if c = '*' ∧ rest.head? = some '*' then
      let spans1 := pushCur cur spans
      let r := collectBold rest.tail []
      if r.2.1 then parseLoopF f r.2.2 [] (spans1 ++ [⟨r.1, true⟩])
      else parseLoopF f r.2.2 ('*' :: '*' :: r.1) spans1
    else parseLoopF f rest (cur ++ [c]) spans

/-- `parse_markdown_spans` from src/ui.rs. -/
def parseMd (l : List Char) : List MRun := parseLoopF (l.length + 1) l [] []

/-- The texts of a run sequence, concatenated in order. -/
def concatTexts (rs : List MRun) : List Char := (rs.map MRun.text).flatten

/-- Re-render a run as source text: a bold run regains its consumed
doubled-marker delimiters, a plain run is its text unchanged. -/
def runRender (r : MRun) : List Char :=
  if r.bold then '*' :: '*' :: (r.text ++ ['*', '*']) else r.text

def renderRuns (rs : List MRun) : List Char := (rs.map runRender).flatten

/-- Lines joined by single spaces (for the wrap/join round-trip claims). -/
def unwords : List (List Char) → List Char
  | [] => []
  | [w] => w
  | w :: ws => w ++ ' ' :: unwords ws

/-- No doubled `'*'` marker anywhere in the string. -/
def noMark : List Char → Bool
  | [] => true
  | [_] => true
  | a :: b :: r => !(a == '*' && b == '*') && noMark (b :: r)

/-- The constant-one width function (every character one column), used to
instantiate the abstract width in concrete evaluations. -/
def cwOne : Char → Nat := fun _ => 1

/-- `AppEvent` from src/app.rs. -/
inductive AppEventM where
  | geminiResponse (r : List Char)
  | geminiError (e : List Char)
  | tick

/-- The channel-drain `match` of `App::run` in src/app.rs: how one drained
asynchronous event mutates the state. -/
def applyAppEvent (st : AppStateM) (ev : AppEventM) (now : Nat) : AppStateM :=
  match ev with
  | .geminiResponse r =>
    { addMessage st r false now with
        is_loading := false, status_message := receivedStatus }
  | .geminiError e =>
    { addMessage st (errTag ++ e) false now with
        is_loading := false, status_message := errorStatus }
  | .tick => incrementAnimation st

/-- C5 (code bug): the buffer operations are not total. `input_cursor` is a
byte index that the code advances by exactly one per inserted character, so
after inserting the two-byte character 'é' into an empty buffer the cursor
sits in the middle of that character, and the next `insert_char` calls
`String::insert` off a character boundary — a panic (modelled as `none`).
This contradicts the claim that no operation can fail. -/
theorem insert_char_panic_after_multibyte :
    (insertChar defaultState 'é').isSome = true ∧
    ((insertChar defaultState 'é').bind fun st1 => insertChar st1 'a') =
      none := by decide

/-- C6 (code bug): the cursor invariant in character units is violated. After
inserting 'é' (one character, two bytes) the cursor is 1 and
`move_cursor_right` compares it against the byte length 2, so it advances to
2 — strictly greater than the buffer's character length 1. -/
theorem cursor_exceeds_char_length :
    ((insertChar defaultState 'é').map fun st1 =>
      decide ((moveCursorRight st1).input.length <
        (moveCursorRight st1).input_cursor)) = some true := by decide

/-- An idle state whose input buffer holds a single space (non-empty but
all-whitespace). -/
def spaceState : AppStateM :=
  { defaultState with input := [' '], input_cursor := 1 }

/-- An idle state whose input buffer holds "Hello". -/
def helloState : AppStateM :=
  { defaultState with input := "Hello".toList, input_cursor := 5 }

/-- A state with a send outstanding and "Hi" typed into the buffer. -/
def hiLoadingState : AppStateM :=
  { defaultState with input := "Hi".toList, is_loading := true }

/-- A state with a send outstanding. -/
def loadingState : AppStateM := { defaultState with is_loading := true }

/-- C7 (counterexample): the Enter guard is `!input.trim().is_empty()`, not
`!input.is_empty()`. A state whose input is a single space is non-empty and
not loading, yet Enter changes nothing and starts no send, refuting the
claim that every non-empty input is sent. -/
theorem enter_whitespace_input_no_send :
    spaceState.input ≠ [] ∧
    spaceState.is_loading = false ∧
    handleEnter spaceState 0 = (spaceState, none) := by
  decide

/-- C7 (amended): when the state is not loading and the input is non-empty
after trimming whitespace, Enter appends exactly one User message whose
content is the (untrimmed) input buffer, clears the input buffer and cursor,
sets the loading flag, sets the sending status, and starts exactly one
asynchronous send carrying that content. -/
theorem enter_send_transition (st : AppStateM) (now : Nat)
    (h1 : trimChars st.input ≠ []) (h2 : st.is_loading = false) :
    (handleEnter st now).1.messages =
      st.messages ++ [⟨st.input, true, now⟩] ∧
    (handleEnter st now).1.input = [] ∧
    (handleEnter st now).1.input_cursor = 0 ∧
    (handleEnter st now).1.is_loading = true ∧
    (handleEnter st now).1.status_message = sendingStatus ∧
    (handleEnter st now).2 = some st.input := by
  simp [handleEnter, h1, h2, addMessage, clearInput]

/-- Witness for `enter_send_transition` at a concrete non-empty input. -/
theorem enter_send_transition_witness :
    (trimChars helloState.input ≠ [] ∧ helloState.is_loading = false) ∧
    ((handleEnter helloState 7).1.messages =
        helloState.messages ++ [⟨helloState.input, true, 7⟩] ∧
      (handleEnter helloState 7).1.input = [] ∧
      (handleEnter helloState 7).1.input_cursor = 0 ∧
      (handleEnter helloState 7).1.is_loading = true ∧
      (handleEnter helloState 7).1.status_message = sendingStatus ∧
      (handleEnter helloState 7).2 = some helloState.input) :=
  ⟨⟨by decide, by decide⟩,
    enter_send_transition helloState 7 (by decide) (by decide)⟩

/-- C8: while a send is outstanding (`is_loading = true`) the Enter key is a
complete no-op — the state, in particular the message log and the input
buffer, is unchanged and no second asynchronous send is started. -/
theorem enter_while_loading_rejected (st : AppStateM) (now : Nat)
    (h : st.is_loading = true) : handleEnter st now = (st, none) := by
  simp [handleEnter, h]

/-- Witness for `enter_while_loading_rejected` at a concrete loading state. -/
theorem enter_while_loading_rejected_witness :
    hiLoadingState.is_loading = true ∧
    handleEnter hiLoadingState 3 = (hiLoadingState, none) :=
  ⟨by decide, enter_while_loading_rejected hiLoadingState 3 (by decide)⟩

/-- C9: with a send outstanding, Escape clears the loading flag and sets the
cancelled status without appending any message; and the in-flight send's
reply or error, if later drained, is still applied to the escaped state — a
Remote (non-user) message is appended and the reply/error transition runs,
rather than being suppressed. -/
theorem esc_cancel_and_stale_result_applied (st : AppStateM)
    (h : st.is_loading = true) :
    (handleEsc st).is_loading = false ∧
    (handleEsc st).status_message = cancelledStatus ∧
    (handleEsc st).messages = st.messages ∧
    (∀ r now,
      (applyAppEvent (handleEsc st) (.geminiResponse r) now).messages =
        st.messages ++ [⟨r, false, now⟩] ∧
      (applyAppEvent (handleEsc st) (.geminiResponse r) now).is_loading =
        false ∧
      (applyAppEvent (handleEsc st) (.geminiResponse r) now).status_message =
        receivedStatus) ∧
    (∀ e now,
      (applyAppEvent (handleEsc st) (.geminiError e) now).messages =
        st.messages ++ [⟨errTag ++ e, false, now⟩] ∧
      (applyAppEvent (handleEsc st) (.geminiError e) now).is_loading =
        false ∧
      (applyAppEvent (handleEsc st) (.geminiError e) now).status_message =
        errorStatus) := by
  simp [handleEsc, h, applyAppEvent, addMessage, incrementAnimation]

/-- Witness for `esc_cancel_and_stale_result_applied` at a concrete loading
state. -/
theorem esc_cancel_witness :
    loadingState.is_loading = true ∧
    ((handleEsc loadingState).is_loading = false ∧
      (handleEsc loadingState).status_message = cancelledStatus ∧
      (handleEsc loadingState).messages = loadingState.messages ∧
      (∀ r now,
        (applyAppEvent (handleEsc loadingState)
            (.geminiResponse r) now).messages =
          loadingState.messages ++ [⟨r, false, now⟩] ∧
        (applyAppEvent (handleEsc loadingState)
            (.geminiResponse r) now).is_loading = false ∧
        (applyAppEvent (handleEsc loadingState)
            (.geminiResponse r) now).status_message = receivedStatus) ∧
      (∀ e now,
        (applyAppEvent (handleEsc loadingState)
            (.geminiError e) now).messages =
          loadingState.messages ++ [⟨errTag ++ e, false, now⟩] ∧
        (applyAppEvent (handleEsc loadingState)
            (.geminiError e) now).is_loading = false ∧
        (applyAppEvent (handleEsc loadingState)
            (.geminiError e) now).status_message = errorStatus)) :=
  ⟨by decide, esc_cancel_and_stale_result_applied loadingState (by decide)⟩

/-- C10: `add_message` appends exactly one message at the end of the log —
leaving every previously stored message in place — and sets `scroll_offset`
to the index of the newly appended message, which is the previous length of
the log (the new last valid index). -/
theorem add_message_appends_and_scrolls (st : AppStateM)
    (content : List Char) (is_user : Bool) (now : Nat) :
    (addMessage st content is_user now).messages =
      st.messages ++ [⟨content, is_user, now⟩] ∧
    (addMessage st content is_user now).scroll_offset =
      st.messages.length := by
  simp [addMessage]


theorem strWidth_nil (cw : Char → Nat) : strWidth cw [] = 0 := rfl

theorem strWidth_cons (cw : Char → Nat) (c : Char) (l : List Char) :
    strWidth cw (c :: l) = cw c + strWidth cw l := by
  simp [strWidth]

theorem strWidth_append (cw : Char → Nat) (a b : List Char) :
    strWidth cw (a ++ b) = strWidth cw a + strWidth cw b := by
  simp [strWidth]

/-- The greedy chunk and the rest reassemble to the scanned string. -/
theorem takeChunk_append (cw : Char → Nat) (aw : Nat) :
    ∀ (l : List Char) (acc : Nat),
      (takeChunk cw aw l acc).1 ++ (takeChunk cw aw l acc).2 = l := by
  intro l
  induction l with
  | nil => intro acc; simp [takeChunk]
  | cons c rest ih =>
    intro acc
    by_cases h : aw < acc + cw c
    · simp [takeChunk, h]
    · simp [takeChunk, h, ih]

/-- The greedy chunk never pushes the accumulated width past the budget. -/
theorem takeChunk_width (cw : Char → Nat) (aw : Nat) :
    ∀ (l : List Char) (acc : Nat), acc ≤ aw →
      acc + strWidth cw (takeChunk cw aw l acc).1 ≤ aw := by
  intro l
  induction l with
  | nil => intro acc h; simpa [takeChunk, strWidth] using h
  | cons c rest ih =>
    intro acc h
    by_cases hc : aw < acc + cw c
    · simpa [takeChunk, hc, strWidth] using h
    · have h2 := ih (acc + cw c) (by omega)
      simp only [takeChunk, hc, if_false, strWidth_cons]
      omega

/-- A line satisfies the wrap-width contract: it fits in the budget, or it
is a single character that alone is wider than the budget. -/
def lineOk (cw : Char → Nat) (aw : Nat) (l : List Char) : Prop :=
  strWidth cw l ≤ aw ∨ ∃ c, l = [c] ∧ aw < cw c

/-- Every chunk emitted by the long-word loop satisfies the contract. -/
theorem breakChunksF_ok (cw : Char → Nat) (aw : Nat) :
    ∀ (f : Nat) (w : List Char), ∀ l ∈ breakChunksF cw aw f w,
      lineOk cw aw l := by
  intro f
  induction f with
  | zero => intro w l hl; cases w <;> simp [breakChunksF] at hl
  | succ f ih =>
    intro w l hl
    cases w with
    | nil => simp [breakChunksF] at hl
    | cons c rest =>
      by_cases hc : aw < cw c
      · simp only [breakChunksF, hc, if_true, List.mem_cons] at hl
        rcases hl with rfl | hl
        · exact Or.inr ⟨c, rfl, hc⟩
        · exact ih _ _ hl
      · simp only [breakChunksF, hc, if_false, List.mem_cons] at hl
        rcases hl with rfl | hl
        · left
          have := takeChunk_width cw aw rest (cw c) (by omega)
          rw [strWidth_cons]
          omega
        · exact ih _ _ hl

theorem breakChunks_ok (cw : Char → Nat) (aw : Nat) (w : List Char) :
    ∀ l ∈ breakChunks cw aw w, lineOk cw aw l :=
  breakChunksF_ok cw aw w.length w

/-- The word loop of `wrap_text` preserves the line contract: every produced
line satisfies it and the current line always fits the budget. Needs the
joining space to be one column wide, as the source's width bookkeeping
assumes. -/
theorem wrap_fold_ok (cw : Char → Nat) (aw : Nat) (hsp : cw ' ' = 1) :
    ∀ (ws : List (List Char)) (st : List (List Char) × List Char),
      (∀ l ∈ st.1, lineOk cw aw l) → strWidth cw st.2 ≤ aw →
      (∀ l ∈ (ws.foldl (wrapStep cw aw) st).1, lineOk cw aw l) ∧
        strWidth cw (ws.foldl (wrapStep cw aw) st).2 ≤ aw := by
  intro ws
  induction ws with
  | nil => intro st h1 h2; exact ⟨h1, h2⟩
  | cons w rest ih =>
    intro st h1 h2
    rw [List.foldl_cons]
    apply ih
    · intro l hl
      unfold wrapStep at hl
      by_cases hw : aw < strWidth cw w
      · simp only [hw, if_true, List.mem_append] at hl
        rcases hl with hl | hl
        · unfold flushLine at hl
          by_cases hc : st.2 = []
          · simp only [hc, if_true] at hl
            exact h1 l hl
          · simp only [hc, if_false, List.mem_append,
              List.mem_singleton] at hl
            rcases hl with hl | rfl
            · exact h1 l hl
            · exact Or.inl h2
        · exact breakChunks_ok cw aw w l hl
      · by_cases hc : st.2 = []
        · simp only [hw, if_false, hc, if_true] at hl
          exact h1 l hl
        · by_cases hf : strWidth cw st.2 + 1 + strWidth cw w ≤ aw
          · simp only [hw, if_false, hc, hf, if_true] at hl
            exact h1 l hl
          · simp only [hw, if_false, hc, hf, List.mem_append,
              List.mem_singleton] at hl
            rcases hl with hl | rfl
            · exact h1 l hl
            · exact Or.inl h2
    · unfold wrapStep
      by_cases hw : aw < strWidth cw w
      · simp only [hw, if_true]
        simp [strWidth]
      · by_cases hc : st.2 = []
        · simp only [hw, if_false, hc, if_true]
          omega
        · by_cases hf : strWidth cw st.2 + 1 + strWidth cw w ≤ aw
          · simp only [hw, if_false, hc, hf, if_true]
            rw [strWidth_append, strWidth_cons, hsp]
            omega
          · simp only [hw, if_false, hc, hf, if_false]
            omega

/-- C1: for every text and every width at least the 10-column floor, every
line produced by `wrap_text` has display width at most `width`, except that
a line may be a single character whose own width exceeds `width` (emitted
alone, never dropped). Display width is an arbitrary per-character column
count `cw`; the hypothesis `cw ' ' = 1` pins the joining space at one
column, as the unicode-width function used by the source does. -/
theorem wrap_text_width_bound (cw : Char → Nat) (text : List Char)
    (width : Nat) (hw : 10 ≤ width) (hsp : cw ' ' = 1) :
    ∀ l ∈ wrapText cw text width,
      strWidth cw l ≤ width ∨ ∃ c, l = [c] ∧ width < cw c := by
  intro l hl
  unfold wrapText at hl
  rw [Nat.max_eq_left hw] at hl
  have h := wrap_fold_ok cw width hsp (splitWs text) ([], [])
    (by intro x hx; simp at hx) (by simp [strWidth])
  set st := (splitWs text).foldl (wrapStep cw width) ([], []) with hst
  by_cases hls : flushLine st = []
  · rw [if_pos hls] at hl
    simp only [List.mem_singleton] at hl
    subst hl
    exact Or.inl (by simp [strWidth])
  · rw [if_neg hls] at hl
    unfold flushLine at hl
    by_cases hc : st.2 = []
    · rw [if_pos hc] at hl
      exact h.1 l hl
    · rw [if_neg hc] at hl
      simp only [List.mem_append, List.mem_singleton] at hl
      rcases hl with hl | rfl
      · exact h.1 l hl
      · exact Or.inl h.2

/-- Witness for `wrap_text_width_bound` on a concrete text and width. -/
theorem wrap_text_width_bound_witness :
    (10 ≤ 12 ∧ cwOne ' ' = 1) ∧
    (∀ l ∈ wrapText cwOne "hello wide world".toList 12,
      strWidth cwOne l ≤ 12 ∨ ∃ c, l = [c] ∧ 12 < cwOne c) :=
  ⟨⟨by omega, rfl⟩,
    wrap_text_width_bound cwOne "hello wide world".toList 12
      (by omega) rfl⟩

theorem unwords_cons2 (x y : List Char) (t : List (List Char)) :
    unwords (x :: y :: t) = x ++ ' ' :: unwords (y :: t) := rfl

theorem unwords_append_single (ls : List (List Char)) (w : List Char)
    (h : ls ≠ []) : unwords (ls ++ [w]) = unwords ls ++ ' ' :: w := by
  induction ls with
  | nil => exact absurd rfl h
  | cons x ls ih =>
    cases ls with
    | nil => rfl
    | cons y r =>
      have e1 : unwords ((x :: y :: r) ++ [w]) =
          x ++ ' ' :: unwords ((y :: r) ++ [w]) := rfl
      rw [e1, ih (by simp), unwords_cons2]
      simp

/-- The separators-in-front form of a word sequence. -/
def sepWords (ws : List (List Char)) : List Char :=
  (ws.map (fun w => ' ' :: w)).flatten

theorem unwords_cons (w : List Char) (ws : List (List Char)) :
    unwords (w :: ws) = w ++ sepWords ws := by
  induction ws generalizing w with
  | nil => simp [unwords, sepWords]
  | cons y r ih =>
    rw [unwords_cons2, ih y]
    simp [sepWords]

/-- Every word produced by the whitespace splitter is non-empty. -/
theorem splitWsAux_nonempty :
    ∀ (l cur : List Char), ∀ w ∈ splitWsAux l cur, w ≠ [] := by
  intro l
  induction l with
  | nil =>
    intro cur w hw
    by_cases hc : cur = []
    · simp [splitWsAux, hc] at hw
    · simp only [splitWsAux, if_neg hc, List.mem_singleton] at hw
      subst hw; exact hc
  | cons c r ih =>
    intro cur w hw
    by_cases hws : isWs c
    · by_cases hc : cur = []
      · simp only [splitWsAux, hws, if_true, if_pos hc] at hw
        exact ih [] w hw
      · simp only [splitWsAux, hws, if_true, if_neg hc,
          List.mem_cons] at hw
        rcases hw with rfl | hw
        · exact hc
        · exact ih [] w hw
    · simp only [splitWsAux, hws, if_false] at hw
      exact ih (cur ++ [c]) w hw

theorem splitWs_nonempty (l : List Char) : ∀ w ∈ splitWs l, w ≠ [] :=
  splitWsAux_nonempty l []

/-- The word loop of `wrap_text`, when no word needs breaking, only
redistributes the words over lines: joining the flushed lines with single
spaces appends exactly the remaining words, and the current line stays
non-empty. -/
theorem wrap_fold_join (cw : Char → Nat) (aw : Nat) :
    ∀ (ws : List (List Char)) (lines : List (List Char)) (cur : List Char),
      (∀ w ∈ ws, strWidth cw w ≤ aw ∧ w ≠ []) → cur ≠ [] →
      unwords (flushLine (ws.foldl (wrapStep cw aw) (lines, cur))) =
        unwords (flushLine (lines, cur)) ++ sepWords ws ∧
      (ws.foldl (wrapStep cw aw) (lines, cur)).2 ≠ [] := by
  intro ws
  induction ws with
  | nil => intro lines cur h hc; simp [sepWords, hc]
  | cons w rest ih =>
    intro lines cur h hc
    have hww : ¬ aw < strWidth cw w := not_lt.mpr (h w (by simp)).1
    have hwne : w ≠ [] := (h w (by simp)).2
    have hrest : ∀ x ∈ rest, strWidth cw x ≤ aw ∧ x ≠ [] := by
      intro x hx; exact h x (by simp [hx])
    have hstep : wrapStep cw aw (lines, cur) w =
        if strWidth cw cur + 1 + strWidth cw w ≤ aw then
          (lines, cur ++ ' ' :: w)
        else (lines ++ [cur], w) := by
      unfold wrapStep
      dsimp only
      rw [if_neg hww, if_neg hc]
    rw [List.foldl_cons, hstep]
    by_cases hf : strWidth cw cur + 1 + strWidth cw w ≤ aw
    · rw [if_pos hf]
      have step := ih lines (cur ++ ' ' :: w) hrest (by simp)
      refine ⟨?_, step.2⟩
      rw [step.1]
      have key : unwords (flushLine (lines, cur ++ ' ' :: w)) =
          unwords (flushLine (lines, cur)) ++ ' ' :: w := by
        unfold flushLine
        dsimp only
        rw [if_neg (by simp : cur ++ ' ' :: w ≠ ([] : List Char)),
          if_neg hc]
        cases lines with
        | nil => rfl
        | cons a ls =>
          rw [unwords_append_single (a :: ls) _ (by simp),
            unwords_append_single (a :: ls) _ (by simp)]
          simp
      rw [key]
      simp [sepWords]
    · rw [if_neg hf]
      have step := ih (lines ++ [cur]) w hrest hwne
      refine ⟨?_, step.2⟩
      rw [step.1]
      have key : unwords (flushLine (lines ++ [cur], w)) =
          unwords (flushLine (lines, cur)) ++ ' ' :: w := by
        unfold flushLine
        dsimp only
        rw [if_neg hwne, if_neg hc,
          unwords_append_single (lines ++ [cur]) w (by simp)]
      rw [key]
      simp [sepWords]

/-- C2 (amended): when every whitespace-separated word of the text has
display width at most the effective budget `max width 10` (so no word needs
breaking), joining `wrap_text`'s lines with single spaces reproduces the
whitespace-collapsed word sequence of the input. -/
theorem wrap_text_join (cw : Char → Nat) (text : List Char) (width : Nat)
    (h : ∀ w ∈ splitWs text, strWidth cw w ≤ max width 10) :
    unwords (wrapText cw text width) = unwords (splitWs text) := by
  unfold wrapText
  cases hws : splitWs text with
  | nil => simp [flushLine, unwords]
  | cons w0 rest =>
    have hw0 : strWidth cw w0 ≤ max width 10 := h w0 (by rw [hws]; simp)
    have hw0ne : w0 ≠ [] := splitWs_nonempty text w0 (by rw [hws]; simp)
    have hrest : ∀ x ∈ rest, strWidth cw x ≤ max width 10 ∧ x ≠ [] := by
      intro x hx
      exact ⟨h x (by rw [hws]; simp [hx]),
        splitWs_nonempty text x (by rw [hws]; simp [hx])⟩
    have hstep : wrapStep cw (max width 10) ([], []) w0 = ([], w0) := by
      unfold wrapStep
      dsimp only
      rw [if_neg (not_lt.mpr hw0), if_pos rfl]
    have hmain := wrap_fold_join cw (max width 10) rest [] w0 hrest hw0ne
    dsimp only
    rw [List.foldl_cons, hstep]
    have hfl : flushLine
        (List.foldl (wrapStep cw (max width 10)) ([], w0) rest) ≠ [] := by
      unfold flushLine
      rw [if_neg hmain.2]
      simp
    rw [if_neg hfl, hmain.1]
    have hfl0 : flushLine ([], w0) = [w0] := by
      unfold flushLine
      rw [if_neg hw0ne]
      rfl
    rw [hfl0, unwords_cons w0 rest]
    rfl

/-- C2 (counterexample): an eleven-character word at width 10 is broken into
two chunk lines, and joining the lines with a single space inserts a space
inside the word, so the round trip fails for the claim as stated. -/
theorem wrap_text_join_cex :
    unwords (wrapText cwOne (List.replicate 11 'a') 10) ≠
      unwords (splitWs (List.replicate 11 'a')) := by decide

/-- Witness for `wrap_text_join` on a concrete text and width. -/
theorem wrap_text_join_witness :
    (∀ w ∈ splitWs "hello world".toList, strWidth cwOne w ≤ max 10 10) ∧
    unwords (wrapText cwOne "hello world".toList 10) =
      unwords (splitWs "hello world".toList) :=
  ⟨by decide, wrap_text_join cwOne "hello world".toList 10 (by decide)⟩

/-- The bold-collection loop either never finds the closing marker — then it
has swallowed the whole input and nothing remains — or it finds one, and the
input splits as the gathered middle, the two marker characters, and the
rest. -/
theorem collectBold_spec : ∀ (l acc : List Char),
    ((collectBold l acc).2.1 = false ∧
      (collectBold l acc).1 = acc ++ l ∧ (collectBold l acc).2.2 = []) ∨
    ∃ mid, (collectBold l acc).2.1 = true ∧
      (collectBold l acc).1 = acc ++ mid ∧
      l = mid ++ '*' :: '*' :: (collectBold l acc).2.2 := by
  intro l
  induction l with
  | nil => intro acc; left; simp [collectBold]
  | cons c rest ih =>
    intro acc
    by_cases hc : c = '*' ∧ rest.head? = some '*'
    · right
      cases rest with
      | nil => simp at hc
      | cons b t =>
        obtain ⟨rfl, hb⟩ := hc
        simp only [List.head?_cons, Option.some.injEq] at hb
        subst hb
        refine ⟨[], ?_⟩
        simp [collectBold]
    · rw [show collectBold (c :: rest) acc =
        collectBold rest (acc ++ [c]) by simp [collectBold, hc]]
      rcases ih (acc ++ [c]) with ⟨h1, h2, h3⟩ | ⟨mid, h1, h2, h3⟩
      · left
        refine ⟨h1, ?_, h3⟩
        rw [h2]; simp
      · right
        refine ⟨c :: mid, h1, ?_, ?_⟩
        · rw [h2]; simp
        · exact congrArg (List.cons c) h3

theorem noMark_cons (c : Char) (rest : List Char)
    (h : noMark (c :: rest) = true) : noMark rest = true := by
  cases rest with
  | nil => rfl
  | cons b t =>
    simp only [noMark, Bool.and_eq_true] at h
    exact h.2

/-- On marker-free input the bold-collection loop consumes everything
without finding a closing marker. -/
theorem collectBold_noMark : ∀ (l acc : List Char), noMark l = true →
    collectBold l acc = (acc ++ l, false, []) := by
  intro l
  induction l with
  | nil => intro acc _; simp [collectBold]
  | cons c rest ih =>
    intro acc hm
    have hc : ¬ (c = '*' ∧ rest.head? = some '*') := by
      cases rest with
      | nil => simp
      | cons b t =>
        simp only [noMark, Bool.and_eq_true, Bool.not_eq_true',
          Bool.and_eq_false_iff, beq_eq_false_iff_ne] at hm
        intro ⟨h1, h2⟩
        simp only [List.head?_cons, Option.some.injEq] at h2
        rcases hm.1 with h | h
        · exact h h1
        · exact h h2
    rw [show collectBold (c :: rest) acc =
      collectBold rest (acc ++ [c]) by simp [collectBold, hc]]
    rw [ih (acc ++ [c]) (noMark_cons c rest hm)]
    simp

theorem parseLoopF_nil (f : Nat) (cur : List Char) (spans : List MRun) :
    parseLoopF f [] cur spans = pushCur cur spans := by
  cases f <;> rfl

theorem parseLoopF_cons_plain (f : Nat) (c : Char) (rest cur : List Char)
    (spans : List MRun) (hc : ¬ (c = '*' ∧ rest.head? = some '*')) :
    parseLoopF (f + 1) (c :: rest) cur spans =
      parseLoopF f rest (cur ++ [c]) spans := by
  simp [parseLoopF, hc]

theorem parseLoopF_cons_mark (f : Nat) (c : Char) (rest cur : List Char)
    (spans : List MRun) (hc : c = '*' ∧ rest.head? = some '*') :
    parseLoopF (f + 1) (c :: rest) cur spans =
      if (collectBold rest.tail []).2.1 then
        parseLoopF f (collectBold rest.tail []).2.2 []
          (pushCur cur spans ++ [⟨(collectBold rest.tail []).1, true⟩])
      else
        parseLoopF f (collectBold rest.tail []).2.2
          ('*' :: '*' :: (collectBold rest.tail []).1)
          (pushCur cur spans) := by
  simp [parseLoopF, hc]

/-- The outer scan is insensitive to the exact fuel once it exceeds the
input length. -/
theorem parseLoopF_fuel : ∀ (f g : Nat) (l cur : List Char)
    (spans : List MRun), l.length < f → l.length < g →
    parseLoopF f l cur spans = parseLoopF g l cur spans := by
  intro f
  induction f with
  | zero => intro g l cur spans hf _; omega
  | succ f ih =>
    intro g l cur spans hf hg
    cases l with
    | nil => rw [parseLoopF_nil, parseLoopF_nil]
    | cons c rest =>
      cases g with
      | zero => simp at hg
      | succ g =>
        cases rest with
        | nil =>
          rw [parseLoopF_cons_plain f c [] cur spans (by simp),
            parseLoopF_cons_plain g c [] cur spans (by simp),
            parseLoopF_nil, parseLoopF_nil]
        | cons b t =>
          by_cases hc : c = '*' ∧ b = '*'
          · have hc' : c = '*' ∧ (b :: t).head? = some '*' := by
              simp [hc.1, hc.2]
            rw [parseLoopF_cons_mark f c (b :: t) cur spans hc',
              parseLoopF_cons_mark g c (b :: t) cur spans hc']
            rcases collectBold_spec (b :: t).tail [] with
              ⟨h1, _, h3⟩ | ⟨mid, h1, _, h3⟩
            · rw [h1]
              simp only [Bool.false_eq_true, if_false]
              rw [h3, parseLoopF_nil, parseLoopF_nil]
            · rw [h1]
              simp only [if_true]
              have hlen := congrArg List.length h3
              simp only [List.length_cons, List.length_append,
                List.tail_cons] at hlen ⊢
              apply ih
              · simp only [List.length_cons] at hf
                omega
              · simp only [List.length_cons] at hg
                omega
          · have hc' : ¬ (c = '*' ∧ (b :: t).head? = some '*') := by
              simpa using hc
            rw [parseLoopF_cons_plain f c (b :: t) cur spans hc',
              parseLoopF_cons_plain g c (b :: t) cur spans hc']
            apply ih
            · simp only [List.length_cons] at hf ⊢
              omega
            · simp only [List.length_cons] at hg ⊢
              omega

theorem renderRuns_append (a b : List MRun) :
    renderRuns (a ++ b) = renderRuns a ++ renderRuns b := by
  simp [renderRuns]

theorem renderRuns_pushCur (cur : List Char) (spans : List MRun) :
    renderRuns (pushCur cur spans) = renderRuns spans ++ cur := by
  unfold pushCur
  by_cases h : cur = []
  · rw [if_pos h, h]
    simp
  · rw [if_neg h, renderRuns_append]
    simp [renderRuns, runRender]

/-- Rendering the runs produced so far, then the current buffer, then the
unscanned input is invariant across the outer scan loop. -/
theorem parseLoopF_render : ∀ (f : Nat) (l cur : List Char)
    (spans : List MRun), l.length < f →
    renderRuns (parseLoopF f l cur spans) =
      renderRuns spans ++ cur ++ l := by
  intro f
  induction f with
  | zero => intro l cur spans hf; omega
  | succ f ih =>
    intro l cur spans hf
    cases l with
    | nil => rw [parseLoopF_nil, renderRuns_pushCur]; simp
    | cons c rest =>
      cases rest with
      | nil =>
        rw [parseLoopF_cons_plain f c [] cur spans (by simp),
          parseLoopF_nil, renderRuns_pushCur]
        simp
      | cons b t =>
        by_cases hc : c = '*' ∧ b = '*'
        · have hc' : c = '*' ∧ (b :: t).head? = some '*' := by
            simp [hc.1, hc.2]
          rw [parseLoopF_cons_mark f c (b :: t) cur spans hc']
          simp only [List.tail_cons]
          rcases collectBold_spec t [] with
            ⟨h1, h2, h3⟩ | ⟨mid, h1, h2, h3⟩
          · rw [h1]
            simp only [Bool.false_eq_true, if_false]
            rw [h3, parseLoopF_nil, renderRuns_pushCur,
              renderRuns_pushCur]
            simp only [List.nil_append] at h2
            rw [h2, hc.1, hc.2]
          · rw [h1]
            simp only [if_true]
            simp only [List.nil_append] at h2
            have hlen := congrArg List.length h3
            simp only [List.length_cons, List.length_append] at hlen
            rw [ih _ _ _ (by
              simp only [List.length_cons] at hf
              omega)]
            rw [renderRuns_append, renderRuns_pushCur]
            have hone : renderRuns [(⟨(collectBold t []).1, true⟩ : MRun)] =
                '*' :: '*' :: ((collectBold t []).1 ++ ['*', '*']) := by
              simp [renderRuns, runRender]
            rw [hone, h2, hc.1, hc.2]
            conv_rhs => rw [h3]
            simp
        · have hc' : ¬ (c = '*' ∧ (b :: t).head? = some '*') := by
            simpa using hc
          rw [parseLoopF_cons_plain f c (b :: t) cur spans hc']
          rw [ih _ _ _ (by simp only [List.length_cons] at hf ⊢; omega)]
          simp

/-- C4 (amended): `parse_markdown_spans` is content-preserving once each
Bold run is rendered back inside its consumed doubled-marker delimiters:
concatenating the runs, with every Bold run's text re-wrapped in a leading
and trailing double marker and every Plain run's text taken verbatim,
yields exactly the input line. (Plain concatenation alone is not enough:
the parser consumes the delimiters of a terminated bold section.) -/
theorem parse_markdown_render_round_trip (l : List Char) :
    renderRuns (parseMd l) = l := by
  have h := parseLoopF_render (l.length + 1) l [] [] (by omega)
  simpa [renderRuns] using h

/-- C4 (counterexample): on the input line with a terminated bold section,
the concatenation of the run texts drops the four marker characters, so it
differs from the input. -/
theorem parse_markdown_concat_cex :
    concatTexts (parseMd "**b**".toList) ≠ "**b**".toList := by decide

/-- Scanning a prefix free of doubled markers (and not ending in a `'*'`
adjacent to the marker that follows) just moves the prefix into the plain
accumulator. -/
theorem parseLoopF_scan : ∀ (s1 : List Char),
    noMark (s1 ++ ['*']) = true →
    ∀ (f : Nat) (s2 cur : List Char) (spans : List MRun),
      (s1 ++ '*' :: s2).length < f →
      parseLoopF f (s1 ++ '*' :: s2) cur spans =
        parseLoopF f ('*' :: s2) (cur ++ s1) spans := by
  intro s1
  induction s1 with
  | nil => intro _ f s2 cur spans _; simp
  | cons a s1 ih =>
    intro hnm f s2 cur spans hf
    cases f with
    | zero => simp at hf
    | succ f =>
      have hc : ¬ (a = '*' ∧ (s1 ++ '*' :: s2).head? = some '*') := by
        cases s1 with
        | nil =>
          simp only [noMark, List.cons_append, List.nil_append,
            Bool.and_eq_true, Bool.not_eq_true',
            Bool.and_eq_false_iff, beq_eq_false_iff_ne] at hnm
          intro ⟨h1, _⟩
          rcases hnm.1 with h | h
          · exact h h1
          · exact h rfl
        | cons b t =>
          simp only [noMark, List.cons_append, Bool.and_eq_true,
            Bool.not_eq_true', Bool.and_eq_false_iff,
            beq_eq_false_iff_ne] at hnm
          intro ⟨h1, h2⟩
          simp only [List.cons_append, List.head?_cons,
            Option.some.injEq] at h2
          rcases hnm.1 with h | h
          · exact h h1
          · exact h h2
      have e1 : (a :: s1) ++ '*' :: s2 = a :: (s1 ++ '*' :: s2) := rfl
      rw [e1, parseLoopF_cons_plain f a (s1 ++ '*' :: s2) cur spans hc]
      have hnm' : noMark (s1 ++ ['*']) = true := by
        have : (a :: s1) ++ ['*'] = a :: (s1 ++ ['*']) := rfl
        rw [this] at hnm
        exact noMark_cons a (s1 ++ ['*']) hnm
      rw [ih hnm' f s2 (cur ++ [a]) spans
        (by simp only [e1, List.length_cons] at hf ⊢; omega)]
      rw [parseLoopF_fuel f (f + 1) ('*' :: s2) (cur ++ [a] ++ s1) spans
        (by simp only [e1, List.length_cons, List.length_append] at hf ⊢
            omega)
        (by simp only [e1, List.length_cons, List.length_append] at hf ⊢
            omega)]
      simp

/-- C3 (amended): on a line consisting of a marker-free prefix, an opening
doubled marker, and a marker-free remainder (so the opening marker is never
closed), `parse_markdown_spans` emits only Plain runs — the prefix as one
run when it is non-empty, then the opening marker together with the
remainder as a final run — and their concatenated text is exactly the
original input: no characters are lost. -/
theorem parse_markdown_unterminated (s1 s2 : List Char)
    (h1 : noMark (s1 ++ ['*']) = true) (h2 : noMark s2 = true) :
    parseMd (s1 ++ '*' :: '*' :: s2) =
      pushCur s1 [] ++ [⟨'*' :: '*' :: s2, false⟩] ∧
    concatTexts (parseMd (s1 ++ '*' :: '*' :: s2)) =
      s1 ++ '*' :: '*' :: s2 ∧
    ∀ r ∈ parseMd (s1 ++ '*' :: '*' :: s2), r.bold = false := by
  have key : parseMd (s1 ++ '*' :: '*' :: s2) =
      pushCur s1 [] ++ [⟨'*' :: '*' :: s2, false⟩] := by
    unfold parseMd
    rw [parseLoopF_scan s1 h1 _ ('*' :: s2) [] [] (by omega)]
    have hlen : ∃ g, (s1 ++ '*' :: '*' :: s2).length + 1 = g + 1 :=
      ⟨(s1 ++ '*' :: '*' :: s2).length, rfl⟩
    obtain ⟨g, hg⟩ := hlen
    rw [hg, parseLoopF_cons_mark g '*' ('*' :: s2) ([] ++ s1) []
      (by simp)]
    simp only [List.tail_cons]
    rw [collectBold_noMark s2 [] h2]
    simp only [Bool.false_eq_true, if_false, List.nil_append]
    rw [parseLoopF_nil]
    unfold pushCur
    rw [if_neg (by simp : ('*' :: '*' :: s2) ≠ ([] : List Char))]
  refine ⟨key, ?_, ?_⟩
  · rw [key]
    by_cases hs : s1 = []
    · subst hs
      simp [pushCur, concatTexts]
    · simp [pushCur, concatTexts, hs]
  · intro r hr
    rw [key] at hr
    by_cases hs : s1 = []
    · subst hs
      simp [pushCur] at hr
      rw [hr]
    · simp [pushCur, hs] at hr
      rcases hr with hr | hr <;> rw [hr]

/-- C3 (counterexample): the unterminated input `"a **b"` does not come back
as a single Plain run equal to the input — the parser returns two Plain
runs, `"a "` and `"**b"`. -/
theorem parse_markdown_unterminated_cex :
    parseMd "a **b".toList ≠ [⟨"a **b".toList, false⟩] ∧
    parseMd "a **b".toList =
      [⟨"a ".toList, false⟩, ⟨"**b".toList, false⟩] := by
  exact ⟨by decide, by decide⟩

/-- Witness for `parse_markdown_unterminated` at the spec's example
`"a **b"`. -/
theorem parse_markdown_unterminated_witness :
    (noMark ("a ".toList ++ ['*']) = true ∧ noMark "b".toList = true) ∧
    (parseMd ("a ".toList ++ '*' :: '*' :: "b".toList) =
      pushCur "a ".toList [] ++ [⟨'*' :: '*' :: "b".toList, false⟩] ∧
    concatTexts (parseMd ("a ".toList ++ '*' :: '*' :: "b".toList)) =
      "a ".toList ++ '*' :: '*' :: "b".toList ∧
    ∀ r ∈ parseMd ("a ".toList ++ '*' :: '*' :: "b".toList),
      r.bold = false) :=
  ⟨⟨by decide, by decide⟩,
    parse_markdown_unterminated "a ".toList "b".toList
      (by decide) (by decide)⟩
